import Mathlib

/-
Verification of the bundle mutation orchestrator implemented in
cyan/tbhtypes/app_bundle.py (class AppBundle).

The embedding is shallow: the file system is a finite set of paths
(a list of strings), the external binary-format collaborators
(Executable / MainExecutable / Plist) are abstract environments whose
observable answers (capability success, encryption status, declared
executable name, raised exception) are fields of small records, and
each Python method is translated into a pure Lean function over those
environments.  Python string operations are modelled on the character
data of Lean strings:

  - a in b          -> substrIn a b        (contiguous occurrence)
  - s.endswith(t)   -> strEndsWith s t
  - s.startswith(t) -> strStartsWith s t
-/

/-- Boolean test that the character sequence pat occurs contiguously
inside the second list.  This mirrors the Python substring operator used
by AppBundle.remove. -/
def seqContains (pat : List Char) : List Char → Bool
  | [] => pat.isEmpty
  | c :: rest => pat.isPrefixOf (c :: rest) || seqContains pat rest

/-- Python a in b on strings: a occurs contiguously in b. -/
def substrIn (needle hay : String) : Bool :=
  seqContains needle.data hay.data

/-- Python s.endswith(suf). -/
def strEndsWith (s suf : String) : Bool :=
  suf.data.isSuffixOf s.data

/-- Python s.startswith(pre). -/
def strStartsWith (s pre : String) : Bool :=
  pre.data.isPrefixOf s.data

theorem seqContains_iff (pat : List Char) (l : List Char) :
    seqContains pat l = true ↔ pat <:+: l := by
  induction l with
  | nil =>
    simp [seqContains, List.isPrefixOf_iff_prefix]
  | cons c rest ih =>
    simp only [seqContains, Bool.or_eq_true, List.isPrefixOf_iff_prefix, ih]
    exact ( List.infix_cons_iff).symm

theorem substrIn_iff (needle hay : String) :
    substrIn needle hay = true ↔ needle.data <:+: hay.data :=
  seqContains_iff needle.data hay.data

/-- Path resolution performed inside AppBundle.remove: the name is used
as given when the bundle root occurs in it as a substring (the Python
test is self.path in name), otherwise the root is prepended. -/
def resolveName (root name : String) : String :=
  if substrIn root name then name else root ++ "/" ++ name

/-- Resolution rule as the specification words it (for comparison with
resolveName): an absolute path is used as given, any other name is
interpreted relative to the package root. -/
def resolveNameSpec (root name : String) : String :=
  if strStartsWith name "/" then name else root ++ "/" ++ name

/-- Effect of one deletion on the file-system set: shutil.rmtree
respectively os.remove erases the entry itself and, for a directory,
everything strictly below it. -/
def deleteEntry (fs : List String) (p : String) : List String :=
  fs.filter (fun q => !(q == p || strStartsWith q (p ++ "/")))

/-- Loop body of AppBundle.remove: resolve each name, skip absent
entries, delete present ones, and remember whether anything existed. -/
def removeGo (root : String) (fs : List String) (existed : Bool) :
    List String → List String × Bool
  | [] => (fs, existed)
  | n :: ns =>
    let p := resolveName root n
    if p ∈ fs then removeGo root (deleteEntry fs p) true ns
    else removeGo root fs existed ns

/-- AppBundle.remove over an explicit file-system set: returns the
final file system and the boolean result of the Python method. -/
def remove (root : String) (names : List String) (fs : List String) :
    List String × Bool :=
  removeGo root fs false names

theorem mem_deleteEntry {q p : String} {fs : List String} :
    q ∈ deleteEntry fs p ↔
      q ∈ fs ∧ q ≠ p ∧ strStartsWith q (p ++ "/") = false := by
  simp [deleteEntry, List.mem_filter, and_assoc]

theorem removeGo_fst_subset (root : String) (ns : List String) :
    ∀ fs b q, q ∈ (removeGo root fs b ns).1 → q ∈ fs := by
  induction ns with
  | nil => intro fs b q h; exact h
  | cons n ns ih =>
    intro fs b q h
    simp only [removeGo] at h
    split at h
    · exact (mem_deleteEntry.mp (ih _ _ _ h)).1
    · exact ih _ _ _ h

theorem removeGo_snd_true (root : String) (ns : List String) :
    ∀ fs, (removeGo root fs true ns).2 = true := by
  induction ns with
  | nil => intro fs; rfl
  | cons n ns ih =>
    intro fs
    simp only [removeGo]
    split
    · exact ih _
    · exact ih _

theorem removeGo_snd_of_exists (root : String) (ns : List String) :
    ∀ fs, (∃ n ∈ ns, resolveName root n ∈ fs) →
      (removeGo root fs false ns).2 = true := by
  induction ns with
  | nil => intro fs h; obtain ⟨n, hn, _⟩ := h; exact absurd hn (by simp)
  | cons m ns ih =>
    intro fs h
    simp only [removeGo]
    split
    · exact removeGo_snd_true root ns _
    · rename_i hm
      obtain ⟨n, hn, hmem⟩ := h
      rcases List.mem_cons.mp hn with rfl | hn'
      · exact absurd hmem hm
      · exact ih fs ⟨n, hn', hmem⟩

theorem removeGo_exists_of_snd (root : String) (ns : List String) :
    ∀ fs, (removeGo root fs false ns).2 = true →
      ∃ n ∈ ns, resolveName root n ∈ fs := by
  induction ns with
  | nil => intro fs h; exact absurd h (by simp [removeGo])
  | cons m ns ih =>
    intro fs h
    simp only [removeGo] at h
    split at h
    · rename_i hm
      exact ⟨m, by simp, hm⟩
    · obtain ⟨n, hn, hmem⟩ := ih fs h
      exact ⟨n, by simp [hn], hmem⟩

theorem removeGo_absent (root : String) (ns : List String) :
    ∀ fs b n, n ∈ ns → resolveName root n ∉ (removeGo root fs b ns).1 := by
  induction ns with
  | nil => intro fs b n hn; exact absurd hn (by simp)
  | cons m ns ih =>
    intro fs b n hn
    rcases List.mem_cons.mp hn with rfl | hn'
    · simp only [removeGo]
      split
      · intro hmem
        have := removeGo_fst_subset root ns _ _ _ hmem
        exact (mem_deleteEntry.mp this).2.1 rfl
      · rename_i hm
        intro hmem
        exact hm (removeGo_fst_subset root ns _ _ _ hmem)
    · simp only [removeGo]
      split
      · exact ih _ _ _ hn'
      · exact ih _ _ _ hn'

/-- C2: AppBundle.remove returns false exactly when none of the named
entries existed beforehand, and afterwards none of the named entries
remain in the file system. -/
theorem remove_false_iff_none_existed (root : String) (names : List String)
    (fs : List String) :
    ((remove root names fs).2 = false ↔
      ∀ n ∈ names, resolveName root n ∉ fs) ∧
    (∀ n ∈ names, resolveName root n ∉ (remove root names fs).1) := by
  constructor
  · constructor
    · intro h n hn hmem
      have := removeGo_snd_of_exists root names fs ⟨n, hn, hmem⟩
      rw [remove] at h
      rw [this] at h
      exact Bool.true_eq_false.mp h
    · intro h
      cases hb : (remove root names fs).2 with
      | false => rfl
      | true =>
        obtain ⟨n, hn, hmem⟩ := removeGo_exists_of_snd root names fs hb
        exact absurd hmem (h n hn)
  · intro n hn
    exact removeGo_absent root names fs false n hn

/-- Witness for remove_false_iff_none_existed on a concrete bundle:
removing a watch directory that exists and a name that does not. -/
theorem remove_false_iff_none_existed_witness :
    ((remove "/App" ["Watch", "zzz"] ["/App/Watch", "/App/Watch/x", "/App/other"]).2 = false ↔
      ∀ n ∈ ["Watch", "zzz"],
        resolveName "/App" n ∉ ["/App/Watch", "/App/Watch/x", "/App/other"]) ∧
    "/App/Watch" ∉ (remove "/App" ["Watch", "zzz"] ["/App/Watch", "/App/Watch/x", "/App/other"]).1 :=
  ⟨(remove_false_iff_none_existed "/App" ["Watch", "zzz"]
      ["/App/Watch", "/App/Watch/x", "/App/other"]).1,
   (remove_false_iff_none_existed "/App" ["Watch", "zzz"]
      ["/App/Watch", "/App/Watch/x", "/App/other"]).2 "Watch" (by decide)⟩

/-- C8 counterexample: the relative name b/a/c contains the bundle root
/a as a substring, so the code uses it as given instead of prepending
the root as the specified absolute-or-relative rule demands. -/
theorem resolve_counterexample :
    strStartsWith "b/a/c" "/" = false ∧
    resolveName "/a" "b/a/c" = "b/a/c" ∧
    resolveName "/a" "b/a/c" ≠ resolveNameSpec "/a" "b/a/c" := by
  decide

/-- C8 amended: a name is used as given exactly when the bundle root
occurs in it as a substring; otherwise the root is prepended. -/
theorem resolveName_characterization (root name : String) :
    (resolveName root name = name ↔ substrIn root name = true) ∧
    (substrIn root name = false →
      resolveName root name = root ++ "/" ++ name) := by
  constructor
  · constructor
    · intro h
      cases hb : substrIn root name with
      | true => rfl
      | false =>
        exfalso
        rw [resolveName, hb] at h
        simp only [Bool.false_eq_true, if_false] at h
        have hlen := congrArg String.length h
        rw [ String.length_append, String.length_append] at hlen
        have : ("/" : String).length = 1 := rfl
        omega
    · intro h
      rw [resolveName, h]
      simp
  · intro h
    rw [resolveName, h]
    simp

/-- Witness for resolveName_characterization: a name not mentioning the
root is resolved relative to the root. -/
theorem resolveName_characterization_witness :
    resolveName "/a" "xx" = "/a" ++ "/" ++ "xx" :=
  (resolveName_characterization "/a" "xx").2 (by decide)

/-- Environment seen by AppBundle.mass_operate: the boolean outcome of
the requested capability (fakesign or thin) on the main executable, the
outcome of the same capability on any other executable path, and the
CFBundleExecutable value read from a nested Info.plist (none models the
read raising an exception). -/
structure MassEnv where
  mainOk : Bool
  cap : String → Bool
  plistExec : String → Option String

/-- Resolution rule of the mass_operate loop body: a path ending in
.dylib is itself the executable, any other artifact has its executable
looked up in its nested Info.plist. -/
def resolveArtifact (env : MassEnv) (ts : String) : Option String :=
  if strEndsWith ts ".dylib" then some ts
  else (env.plistExec ts).map (fun e => ts ++ "/" ++ e)

/-- Loop of mass_operate over the cached artifact list, threading the
success count; a failed Info.plist read aborts the whole loop (none). -/
def massLoop (env : MassEnv) : List String → Nat → Option Nat
  | [], count => some count
  | ts :: rest, count =>
    match resolveArtifact env ts with
    | none => none
    | some p => massLoop env rest (if env.cap p then count + 1 else count)

/-- AppBundle.mass_operate: the main executable contributes 1 exactly
when its capability call succeeds, then every cached artifact is
swept; the returned value is the printed success count, or none when a
nested metadata read raised. -/
def massOperate (env : MassEnv) (artifacts : List String) : Option Nat :=
  massLoop env artifacts (if env.mainOk then 1 else 0)

/-- Number of artifacts whose resolved executable reports capability
success. -/
def artifactSuccessCount (env : MassEnv) (artifacts : List String) : Nat :=
  (artifacts.filter (fun ts =>
    match resolveArtifact env ts with
    | some p => env.cap p
    | none => false)).length

theorem massLoop_count (env : MassEnv) (arts : List String)
    (h : ∀ ts ∈ arts, (resolveArtifact env ts).isSome = true) :
    ∀ c, massLoop env arts c = some (c + artifactSuccessCount env arts) := by
  induction arts with
  | nil => intro c; simp [massLoop, artifactSuccessCount]
  | cons ts rest ih =>
    intro c
    have hts := h ts (by simp)
    obtain ⟨p, hp⟩ := Option.isSome_iff_exists.mp hts
    have hrest : ∀ u ∈ rest, (resolveArtifact env u).isSome = true :=
      fun u hu => h u (by simp [hu])
    simp only [massLoop, hp]
    rw [ih hrest]
    simp only [artifactSuccessCount, List.filter_cons, hp, Option.some.injEq]
    cases hc : env.cap p with
    | true => simp [hc]; omega
    | false => simp [hc]

/-- C1 counterexample environment: the capability call on the main
executable fails. -/
def envMainFail : MassEnv :=
  ⟨false, fun _ => true, fun _ => none⟩

/-- C1 counterexample: with no artifacts and a failing main capability
call, mass_operate reports 0, not 1 plus the artifact successes. -/
theorem mass_operate_counterexample :
    massOperate envMainFail [] ≠
      some (1 + artifactSuccessCount envMainFail []) := by
  decide

/-- C1 amended: when every nested metadata read succeeds, the reported
success count is the main-executable contribution (1 on success, 0 on
failure) plus the number of artifacts whose resolved executable reports
success, even when some artifact calls fail. -/
theorem mass_operate_success_count (env : MassEnv) (arts : List String)
    (h : ∀ ts ∈ arts, (resolveArtifact env ts).isSome = true) :
    massOperate env arts =
      some ((if env.mainOk then 1 else 0) + artifactSuccessCount env arts) :=
  massLoop_count env arts h _

/-- Concrete environment with a succeeding main capability, capability
success exactly on lib/a.dylib, and a readable nested Info.plist. -/
def envMassMixed : MassEnv :=
  ⟨true, fun s => s == "lib/a.dylib", fun _ => some "Bin"⟩

/-- Witness for mass_operate_success_count: one succeeding dylib and one
failing extension executable, main succeeding. -/
theorem mass_operate_success_count_witness :
    massOperate envMassMixed ["lib/a.dylib", "Ext.appex"] =
      some ((if envMassMixed.mainOk then 1 else 0) +
        artifactSuccessCount envMassMixed ["lib/a.dylib", "Ext.appex"]) :=
  mass_operate_success_count envMassMixed ["lib/a.dylib", "Ext.appex"] (by decide)

theorem massLoop_none (env : MassEnv) (arts : List String) (ts : String)
    (hmem : ts ∈ arts) (hres : resolveArtifact env ts = none) :
    ∀ c, massLoop env arts c = none := by
  induction arts with
  | nil => exact absurd hmem (by simp)
  | cons a rest ih =>
    intro c
    simp only [massLoop]
    cases ha : resolveArtifact env a with
    | none => rfl
    | some p =>
      rcases List.mem_cons.mp hmem with rfl | hmem'
      · exact absurd ha (by rw [hres]; simp)
      · exact ih hmem' _

/-- C9: a non-dylib artifact whose nested Info.plist read raises makes
the whole mass_operate sweep abort with no reported count. -/
theorem mass_operate_unreadable_aborts (env : MassEnv) (arts : List String)
    (ts : String) (hmem : ts ∈ arts)
    (hdylib : strEndsWith ts ".dylib" = false)
    (hplist : env.plistExec ts = none) :
    massOperate env arts = none := by
  have hres : resolveArtifact env ts = none := by
    rw [resolveArtifact, hdylib]
    simp [hplist]
  exact massLoop_none env arts ts hmem hres _

/-- Witness for mass_operate_unreadable_aborts: a single extension
artifact with an unreadable Info.plist. -/
theorem mass_operate_unreadable_aborts_witness :
    massOperate envMainFail ["Ext.appex"] = none :=
  mass_operate_unreadable_aborts envMainFail ["Ext.appex"] "Ext.appex"
    (by decide) (by decide) rfl

/-- Reference string written into a load command for one tweak key, as
built in _inject_into_extension: anchored two directory levels above
the running executable under the -p path strategy, anchored at the
run-path search list otherwise. -/
def dylibRef (injectToPath : Bool) (k : String) : String :=
  if injectToPath then "@executable_path/../../" ++ k else "@rpath/" ++ k

/-- Load-command reference strings produced for an extension: the tweak
keys are filtered to the .dylib suffix and each surviving key is turned
into one reference. -/
def injectedRefs (tweaks : List String) (injectToPath : Bool) : List String :=
  (tweaks.filter (fun k => strEndsWith k ".dylib")).map (dylibRef injectToPath)

theorem slash_count_zero {k : String} (h : substrIn "/" k = false) :
    k.data.count '/' = 0 := by
  rw [List.count_eq_zero]
  intro hmem
  obtain ⟨s, t, hst⟩ := List.append_of_mem hmem
  have : substrIn "/" k = true :=
    (substrIn_iff "/" k).mpr ⟨s, t, by rw [hst]; simp⟩
  rw [this] at h
  exact Bool.true_eq_false.mp h

theorem rpath_ref_no_updirs {k : String} (h : substrIn "/" k = false) :
    substrIn "../../" ("@rpath/" ++ k) = false := by
  rw [ Bool.eq_false_iff]
  intro hin
  have hinf := (substrIn_iff "../../" ("@rpath/" ++ k)).mp hin
  have hc := hinf.sublist.count_le '/'
  rw [ String.data_append, List.count_append] at hc
  have h0 : k.data.count '/' = 0 := slash_count_zero h
  have h1 : ("@rpath/" : String).data.count '/' = 1 := by decide
  have h2 : ("../../" : String).data.count '/' = 2 := by decide
  omega

theorem exec_ref_has_updirs (k : String) :
    substrIn "../../" ("@executable_path/../../" ++ k) = true := by
  apply (substrIn_iff "../../" ("@executable_path/../../" ++ k)).mpr
  have hd : ("@executable_path/../../" ++ k).data =
      ("@executable_path/" : String).data ++ ("../../" : String).data ++ k.data := by
    rw [ String.data_append]
    rfl
  rw [hd]
  exact List.infix_append _ _ _

/-- C4: every reference written into an extension comes from a tweak key
with the .dylib suffix; with the run-path strategy the reference is
@rpath/ plus the bare key and never mentions ../../, while with the
path strategy it is @executable_path/ plus exactly two parent-directory
steps and then the bare key. -/
theorem extension_ref_strategy (tweaks : List String) (injectToPath : Bool)
    (hk : ∀ k ∈ tweaks, substrIn "/" k = false) :
    ∀ r ∈ injectedRefs tweaks injectToPath,
      (injectToPath = false →
        ∃ k, k ∈ tweaks ∧ strEndsWith k ".dylib" = true ∧
          r = "@rpath/" ++ k ∧ substrIn "../../" r = false) ∧
      (injectToPath = true →
        ∃ k, k ∈ tweaks ∧ strEndsWith k ".dylib" = true ∧
          r = "@executable_path/../../" ++ k ∧ substrIn "/" k = false ∧
          substrIn "../../" r = true) := by
  intro r hr
  rw [injectedRefs] at hr
  obtain ⟨k, hkmem, hrk⟩ := List.mem_map.mp hr
  obtain ⟨hkt, hkd⟩ := List.mem_filter.mp hkmem
  constructor
  · rintro rfl
    refine ⟨k, hkt, hkd, ?_, ?_⟩
    · rw [← hrk]; rfl
    · rw [← hrk]
      exact rpath_ref_no_updirs (hk k hkt)
  · rintro rfl
    refine ⟨k, hkt, hkd, ?_, hk k hkt, ?_⟩
    · rw [← hrk]; rfl
    · rw [← hrk]
      exact exec_ref_has_updirs k

/-- Witness for extension_ref_strategy: a dylib key and a framework key
under the run-path strategy; only the dylib produces a reference and it
contains no parent-directory steps. -/
theorem extension_ref_strategy_witness :
    ∃ k, k ∈ ["foo.dylib", "bar.framework"] ∧ strEndsWith k ".dylib" = true ∧
      "@rpath/foo.dylib" = "@rpath/" ++ k ∧
      substrIn "../../" "@rpath/foo.dylib" = false :=
  (extension_ref_strategy ["foo.dylib", "bar.framework"] false (by decide)
    "@rpath/foo.dylib" (by decide)).1 rfl

/-- Observable mutating calls issued against an extension during
_inject_into_extension, in program order. -/
inductive Ev where
  | writeEnt (p : String)
  | removeSig
  | inject (ref : String)
  | flush
  | signEnt (p : String)
deriving DecidableEq

/-- Outcome printed or implied by one _inject_into_extension call that
returned normally. -/
inductive ExtReport where
  | skippedPlist
  | skippedEncrypted
  | skippedEmpty
  | injected
deriving DecidableEq

/-- Environment of one extension as _inject_into_extension observes it:
whether the AppBundle constructor succeeds (readable Info.plist),
whether the executable is encrypted, and the behaviour of each external
signing or injection primitive.  entResult none models
write_entitlements raising, some b its returned has-entitlements flag;
each Ok flag false models the corresponding primitive raising; and
injPresent models the executable's inj accumulator not being None. -/
structure ExtEnv where
  plistReadable : Bool
  encrypted : Bool
  entResult : Option Bool
  removeSigOk : Bool
  injectOk : Bool
  injPresent : Bool
  flushOk : Bool
  signOk : Bool

/-- Translation of _inject_into_extension: returns the mutating events
issued so far together with the normal-return report, or none in the
second component when an uncaught exception escapes.  Only the
AppBundle construction is guarded by the try/except of the source. -/
def injectIntoExtension (env : ExtEnv) (appexPath : String)
    (tweaks : List String) (injectToPath : Bool) :
    List Ev × Option ExtReport :=
  if !env.plistReadable then ([], some ExtReport.skippedPlist)
  else if env.encrypted then ([], some ExtReport.skippedEncrypted)
  else if (tweaks.filter (fun k => strEndsWith k ".dylib")).isEmpty then
    ([], some ExtReport.skippedEmpty)
  else
    match env.entResult with
    | none => ([], none)
    | some hasEnt =>
      let entPath := appexPath ++ "/cyan.entitlements"
      let ev1 := [Ev.writeEnt entPath]
      if !env.removeSigOk then (ev1, none)
      else
        let ev2 := ev1 ++ [Ev.removeSig]
        if !env.injectOk then (ev2, none)
        else
          let ev3 := ev2 ++ (injectedRefs tweaks injectToPath).map Ev.inject
          if env.injPresent then
            if !env.flushOk then (ev3, none)
            else
              let ev4 := ev3 ++ [Ev.flush]
              if hasEnt then
                if !env.signOk then (ev4, none)
                else (ev4 ++ [Ev.signEnt entPath], some ExtReport.injected)
              else (ev4, some ExtReport.injected)
          else
            if hasEnt then
              if !env.signOk then (ev3, none)
              else (ev3 ++ [Ev.signEnt entPath], some ExtReport.injected)
            else (ev3, some ExtReport.injected)

/-- Loop at the end of inject_all_extensions: each extension is handed
to _inject_into_extension with no surrounding exception handler, so an
escaping exception aborts the remaining iterations (none); otherwise
the per-extension reports are collected in order. -/
def injectAllExtensionsLoop (tweaks : List String) (injectToPath : Bool) :
    List (ExtEnv × String) → Option (List ExtReport)
  | [] => some []
  | e :: rest =>
    match (injectIntoExtension e.1 e.2 tweaks injectToPath).2 with
    | none => none
    | some r =>
      match injectAllExtensionsLoop tweaks injectToPath rest with
      | none => none
      | some l => some (r :: l)

/-- Absence of primitive failures in one extension environment: no
signing or injection primitive raises there. -/
def primSafe (env : ExtEnv) : Prop :=
  env.entResult.isSome = true ∧ env.removeSigOk = true ∧
  env.injectOk = true ∧ env.flushOk = true ∧ env.signOk = true

instance (env : ExtEnv) : Decidable (primSafe env) := by
  unfold primSafe
  infer_instance

theorem inject_success_shape (env : ExtEnv) (p : String) (tweaks : List String)
    (itp : Bool) (evs : List Ev)
    (h : injectIntoExtension env p tweaks itp = (evs, some ExtReport.injected)) :
    ∃ hasEnt, env.entResult = some hasEnt ∧
      evs = [Ev.writeEnt (p ++ "/cyan.entitlements"), Ev.removeSig] ++
        (injectedRefs tweaks itp).map Ev.inject ++
        (if env.injPresent then [Ev.flush] else []) ++
        (if hasEnt then [Ev.signEnt (p ++ "/cyan.entitlements")] else []) := by
  simp only [injectIntoExtension] at h
  split at h
  · simp at h
  split at h
  · simp at h
  split at h
  · simp at h
  split at h
  · simp at h
  rename_i hasEnt heq
  split at h
  · simp at h
  split at h
  · simp at h
  split at h
  · rename_i hip
    split at h
    · simp at h
    split at h
    · rename_i hent
      split at h
      · simp at h
      rw [Prod.mk.injEq] at h
      obtain ⟨h1, -⟩ := h
      subst h1
      subst hent
      refine ⟨true, heq, ?_⟩
      simp [hip]
    · rename_i hent
      rw [Bool.not_eq_true] at hent
      rw [Prod.mk.injEq] at h
      obtain ⟨h1, -⟩ := h
      subst h1
      subst hent
      refine ⟨false, heq, ?_⟩
      simp [hip]
  · rename_i hip
    rw [Bool.not_eq_true] at hip
    split at h
    · rename_i hent
      split at h
      · simp at h
      rw [Prod.mk.injEq] at h
      obtain ⟨h1, -⟩ := h
      subst h1
      subst hent
      refine ⟨true, heq, ?_⟩
      simp [hip]
    · rename_i hent
      rw [Bool.not_eq_true] at hent
      rw [Prod.mk.injEq] at h
      obtain ⟨h1, -⟩ := h
      subst h1
      subst hent
      refine ⟨false, heq, ?_⟩
      simp [hip]

/-- C5: whenever one extension's injection pass returns with the
injected report, the re-sign call with the preserved cyan.entitlements
side file is the final event and happens exactly when entitlements
existed before stripping; the flush of accumulated load commands
strictly precedes it; with no prior entitlements no signing call is
issued at all. -/
theorem flush_precedes_sign (env : ExtEnv) (p : String) (tweaks : List String)
    (itp : Bool) (evs : List Ev)
    (h : injectIntoExtension env p tweaks itp = (evs, some ExtReport.injected)) :
    (env.entResult = some true →
      ∃ pre, evs = pre ++ [Ev.signEnt (p ++ "/cyan.entitlements")] ∧
        (∀ q, Ev.signEnt q ∉ pre) ∧
        (env.injPresent = true → Ev.flush ∈ pre)) ∧
    (env.entResult = some false → ∀ q, Ev.signEnt q ∉ evs) ∧
    env.entResult ≠ none := by
  obtain ⟨hasEnt, heq, hevs⟩ := inject_success_shape env p tweaks itp evs h
  refine ⟨?_, ?_, ?_⟩
  · intro hET
    rw [heq] at hET
    have hhe := Option.some.inj hET
    subst hhe
    refine ⟨[Ev.writeEnt (p ++ "/cyan.entitlements"), Ev.removeSig] ++
      (injectedRefs tweaks itp).map Ev.inject ++
      (if env.injPresent then [Ev.flush] else []), ?_, ?_, ?_⟩
    · simpa using hevs
    · intro q
      cases hip : env.injPresent <;> simp [hip]
    · intro hip
      simp [hip]
  · intro hEF
    rw [heq] at hEF
    have hhe := Option.some.inj hEF
    subst hhe
    rw [hevs]
    intro q
    cases hip : env.injPresent <;> simp [hip]
  · rw [heq]
    simp

/-- Extension environment with nothing failing: readable metadata, not
encrypted, entitlements present, every primitive succeeding. -/
def envFine : ExtEnv := ⟨true, false, some true, true, true, true, true, true⟩

/-- Extension environment whose write_entitlements primitive raises. -/
def envEntFail : ExtEnv := ⟨true, false, none, true, true, true, true, true⟩

/-- Extension environment whose Info.plist cannot be read. -/
def envUnreadable : ExtEnv := ⟨false, false, some true, true, true, true, true, true⟩

/-- Extension environment whose executable reports itself encrypted. -/
def envEncrypted : ExtEnv := ⟨true, true, some true, true, true, true, true, true⟩

/-- Witness for flush_precedes_sign on a fully succeeding extension. -/
theorem flush_precedes_sign_witness :
    ∃ pre, (injectIntoExtension envFine "X.appex" ["t.dylib"] false).1 =
        pre ++ [Ev.signEnt "X.appex/cyan.entitlements"] ∧
      (∀ q, Ev.signEnt q ∉ pre) ∧
      (envFine.injPresent = true → Ev.flush ∈ pre) :=
  (flush_precedes_sign envFine "X.appex" ["t.dylib"] false
    (injectIntoExtension envFine "X.appex" ["t.dylib"] false).1 rfl).1 rfl

/-- C10: when no tweak key carries the .dylib suffix the extension pass
returns normally before issuing any mutating call: no entitlements side
file, no signature removal, no load command, no flush, no signing. -/
theorem no_dylib_no_mutation (env : ExtEnv) (p : String) (tweaks : List String)
    (itp : Bool) (h : ∀ k ∈ tweaks, strEndsWith k ".dylib" = false) :
    (injectIntoExtension env p tweaks itp).1 = [] ∧
    (injectIntoExtension env p tweaks itp).2 ≠ none := by
  have hf : tweaks.filter (fun k => strEndsWith k ".dylib") = [] :=
    List.filter_eq_nil_iff.mpr (fun a ha => by simp [h a ha])
  rw [injectIntoExtension, hf]
  constructor
  · split
    · rfl
    split
    · rfl
    · simp
  · split
    · simp
    split
    · simp
    · simp

/-- Witness for no_dylib_no_mutation: a framework-only tweak set. -/
theorem no_dylib_no_mutation_witness :
    (injectIntoExtension envFine "X.appex" ["a.framework"] false).1 = [] ∧
    (injectIntoExtension envFine "X.appex" ["a.framework"] false).2 ≠ none :=
  no_dylib_no_mutation envFine "X.appex" ["a.framework"] false (by decide)

theorem primSafe_returns (env : ExtEnv) (p : String) (tweaks : List String)
    (itp : Bool) (hs : primSafe env) :
    (injectIntoExtension env p tweaks itp).2 ≠ none := by
  obtain ⟨h1, h2, h3, h4, h5⟩ := hs
  obtain ⟨b, hb⟩ := Option.isSome_iff_exists.mp h1
  rw [injectIntoExtension]
  split
  · simp
  split
  · simp
  split
  · simp
  rw [hb]
  simp only [h2, h3, h4, h5, Bool.not_true, Bool.false_eq_true, if_false]
  split <;> split <;> simp

/-- C3 counterexample: the first extension's entitlement extraction
raises, the raise escapes the unguarded loop of
inject_all_extensions, and the fully healthy sibling B.appex is never
processed: the sweep yields no report list at all. -/
theorem inject_all_counterexample :
    injectAllExtensionsLoop ["t.dylib"] false
      [(envEntFail, "A.appex"), (envFine, "B.appex")] = none := by
  decide

/-- C3 amended: an unreadable metadata document or an encrypted
executable abandons only that artifact, and as long as no signing or
injection primitive raises, every extension in the list is processed
and reported; a primitive raise, by contrast, escapes the loop (see
inject_all_counterexample). -/
theorem inject_all_extensions_isolation (tweaks : List String) (itp : Bool)
    (exts : List (ExtEnv × String)) (h : ∀ e ∈ exts, primSafe e.1) :
    ∃ l, injectAllExtensionsLoop tweaks itp exts = some l ∧
      l.length = exts.length := by
  induction exts with
  | nil => exact ⟨[], rfl, rfl⟩
  | cons e rest ih =>
    obtain ⟨l, hl, hlen⟩ := ih (fun u hu => h u (by simp [hu]))
    have hne := primSafe_returns e.1 e.2 tweaks itp (h e (by simp))
    obtain ⟨r, hr⟩ := Option.ne_none_iff_exists'.mp hne
    refine ⟨r :: l, ?_, by simp [hlen]⟩
    simp only [injectAllExtensionsLoop, hr, hl]

/-- Witness for inject_all_extensions_isolation: one unreadable, one
encrypted and one healthy extension all get processed and reported. -/
theorem inject_all_extensions_isolation_witness :
    ∃ l, injectAllExtensionsLoop ["t.dylib"] false
        [(envUnreadable, "A.appex"), (envEncrypted, "B.appex"), (envFine, "C.appex")] =
          some l ∧ l.length = 3 :=
  inject_all_extensions_isolation ["t.dylib"] false
    [(envUnreadable, "A.appex"), (envEncrypted, "B.appex"), (envFine, "C.appex")]
    (by decide)

theorem remove_single_fst (root p : String) (fs : List String) :
    (remove root [p] fs).1 =
      if resolveName root p ∈ fs then deleteEntry fs (resolveName root p) else fs := by
  simp only [remove, removeGo]
  split <;> rfl

theorem not_mem_remove_single (root p : String) (fs : List String)
    (hres : resolveName root p = p) : p ∉ (remove root [p] fs).1 := by
  rw [remove_single_fst, hres]
  split
  · intro hmem
    exact (mem_deleteEntry.mp hmem).2.1 rfl
  · rename_i hnm
    exact hnm

theorem mem_remove_single (root p q : String) (fs : List String)
    (hres : resolveName root p = p)
    (hq : q ∈ fs) (hne : q ≠ p) (hpf : strStartsWith q (p ++ "/") = false) :
    q ∈ (remove root [p] fs).1 := by
  rw [remove_single_fst, hres]
  split
  · exact mem_deleteEntry.mpr ⟨hq, hne, hpf⟩
  · exact hq

/-- Data observed for one candidate extension of the single-level glob
in remove_encrypted_extensions: its directory path, its declared
executable name (the bn attribute of the nested bundle's executable)
and the encryption status the executable reports. -/
structure ExtInfo where
  path : String
  execName : String
  encrypted : Bool
deriving DecidableEq

/-- Translation of remove_encrypted_extensions: walk the single-level
extension candidates in order, delete the encrypted ones through
AppBundle.remove, and collect their declared executable names; the
result is the reported removed-name list and the final file system. -/
def removeEncryptedExtensions (root : String) (fs : List String) :
    List ExtInfo → List String × List String
  | [] => ([], fs)
  | e :: rest =>
    if e.encrypted then
      (e.execName ::
        (removeEncryptedExtensions root (remove root [e.path] fs).1 rest).1,
       (removeEncryptedExtensions root (remove root [e.path] fs).1 rest).2)
    else removeEncryptedExtensions root fs rest

theorem removeEnc_subset (root : String) (exts : List ExtInfo) :
    ∀ fs q, q ∈ (removeEncryptedExtensions root fs exts).2 → q ∈ fs := by
  induction exts with
  | nil => intro fs q h; exact h
  | cons e rest ih =>
    intro fs q h
    cases he : e.encrypted with
    | true =>
      simp only [removeEncryptedExtensions, he, if_true] at h
      exact removeGo_fst_subset root [e.path] fs false q (ih _ q h)
    | false =>
      simp only [removeEncryptedExtensions, he, Bool.false_eq_true, if_false] at h
      exact ih fs q h

/-- C6: the encrypted-extension filter reports exactly the declared
executable names of the encrypted extensions, in order (hence an empty
report when none is encrypted); every encrypted extension directory is
gone afterwards; and every file-system entry that is not an encrypted
extension directory or below one survives, so non-encrypted extensions
and their files are untouched. -/
theorem remove_encrypted_exact (root : String) (exts : List ExtInfo) :
    ∀ fs, (∀ e ∈ exts, substrIn root e.path = true) →
      ((removeEncryptedExtensions root fs exts).1 =
        (exts.filter (fun e => e.encrypted)).map (fun e => e.execName)) ∧
      (∀ e ∈ exts, e.encrypted = true →
        e.path ∉ (removeEncryptedExtensions root fs exts).2) ∧
      (∀ q ∈ fs,
        (∀ e ∈ exts, e.encrypted = true →
          q ≠ e.path ∧ strStartsWith q (e.path ++ "/") = false) →
        q ∈ (removeEncryptedExtensions root fs exts).2) := by
  induction exts with
  | nil =>
    intro fs _
    exact ⟨rfl, by simp, fun q hq _ => hq⟩
  | cons e rest ih =>
    intro fs hp
    have hpe : substrIn root e.path = true := hp e (by simp)
    have hres : resolveName root e.path = e.path := by
      rw [resolveName, hpe]
      simp
    have hprest : ∀ u ∈ rest, substrIn root u.path = true :=
      fun u hu => hp u (by simp [hu])
    cases he : e.encrypted with
    | false =>
      obtain ⟨ih1, ih2, ih3⟩ := ih fs hprest
      simp only [removeEncryptedExtensions, he, Bool.false_eq_true, if_false]
      refine ⟨?_, ?_, ?_⟩
      · rw [ih1, List.filter_cons, he]
        simp
      · intro u hu hue
        rcases List.mem_cons.mp hu with rfl | hu'
        · rw [he] at hue
          exact absurd hue (by simp)
        · exact ih2 u hu' hue
      · intro q hq hg
        exact ih3 q hq (fun u hu hue => hg u (by simp [hu]) hue)
    | true =>
      obtain ⟨ih1, ih2, ih3⟩ := ih (remove root [e.path] fs).1 hprest
      simp only [removeEncryptedExtensions, he, if_true]
      refine ⟨?_, ?_, ?_⟩
      · rw [ih1, List.filter_cons, he]
        simp
      · intro u hu hue
        rcases List.mem_cons.mp hu with rfl | hu'
        · intro hmem
          have := removeEnc_subset root rest _ u.path hmem
          exact not_mem_remove_single root u.path fs hres this
        · exact ih2 u hu' hue
      · intro q hq hg
        obtain ⟨hne, hnp⟩ := hg e (by simp) he
        refine ih3 q ?_ (fun u hu hue => hg u (by simp [hu]) hue)
        exact mem_remove_single root e.path q fs hres hq hne hnp

/-- Witness for remove_encrypted_exact: the specification's example
scenario with encrypted A.appex and non-encrypted B.appex. -/
theorem remove_encrypted_exact_witness :
    ((removeEncryptedExtensions "App.app"
        ["App.app/Extensions/A.appex", "App.app/Extensions/A.appex/Info.plist",
         "App.app/Extensions/B.appex", "App.app/Extensions/B.appex/B"]
        [⟨"App.app/Extensions/A.appex", "A", true⟩,
         ⟨"App.app/Extensions/B.appex", "B", false⟩]).1 = ["A"]) ∧
    "App.app/Extensions/A.appex" ∉
      (removeEncryptedExtensions "App.app"
        ["App.app/Extensions/A.appex", "App.app/Extensions/A.appex/Info.plist",
         "App.app/Extensions/B.appex", "App.app/Extensions/B.appex/B"]
        [⟨"App.app/Extensions/A.appex", "A", true⟩,
         ⟨"App.app/Extensions/B.appex", "B", false⟩]).2 ∧
    "App.app/Extensions/B.appex/B" ∈
      (removeEncryptedExtensions "App.app"
        ["App.app/Extensions/A.appex", "App.app/Extensions/A.appex/Info.plist",
         "App.app/Extensions/B.appex", "App.app/Extensions/B.appex/B"]
        [⟨"App.app/Extensions/A.appex", "A", true⟩,
         ⟨"App.app/Extensions/B.appex", "B", false⟩]).2 := by
  have h := remove_encrypted_exact "App.app"
    [⟨"App.app/Extensions/A.appex", "A", true⟩,
     ⟨"App.app/Extensions/B.appex", "B", false⟩]
    ["App.app/Extensions/A.appex", "App.app/Extensions/A.appex/Info.plist",
     "App.app/Extensions/B.appex", "App.app/Extensions/B.appex/B"]
    (by decide)
  refine ⟨by rw [h.1]; decide,
    h.2.1 ⟨"App.app/Extensions/A.appex", "A", true⟩ (by decide) rfl,
    h.2.2 "App.app/Extensions/B.appex/B" (by decide) (by decide)⟩

/-- Cache access step at the top of mass_operate: when
cached_executables is None the current enumeration result is stored and
returned, otherwise the stored sequence is returned unchanged. -/
def cachedAccess (enumNow : List String) (cache : Option (List String)) :
    List String × Option (List String) :=
  match cache with
  | none => (enumNow, some enumNow)
  | some l => (l, some l)

/-- Repeated cache accesses within one run: each access sees the
enumeration the file system would produce at that moment and threads
the cache state. -/
def cachedAccessRun (cache : Option (List String)) :
    List (List String) → List (List String) × Option (List String)
  | [] => ([], cache)
  | e :: es =>
    ((cachedAccess e cache).1 :: (cachedAccessRun (cachedAccess e cache).2 es).1,
     (cachedAccessRun (cachedAccess e cache).2 es).2)

theorem cachedAccessRun_some (l : List String) (enums : List (List String)) :
    cachedAccessRun (some l) enums = (enums.map (fun _ => l), some l) := by
  induction enums with
  | nil => rfl
  | cons e es ih =>
    simp only [cachedAccessRun, cachedAccess, ih, List.map_cons]

/-- C7: after the first access populates the cache with enumeration e0,
every later access in the same run returns exactly e0 and leaves the
cache untouched, no matter what the file system would enumerate to at
those later moments. -/
theorem cache_computed_once (e0 : List String) (enums : List (List String)) :
    cachedAccessRun (cachedAccess e0 none).2 enums =
      (enums.map (fun _ => e0), some e0) :=
  cachedAccessRun_some e0 enums
